import Mathlib

/-!
Verification of the translation pipeline in `draft.cpp`: the regex tokenizer
`tokenize`, the tree builder `parse`, the validator `checkSemantics` and the
emitter `generateCode`.  Strings are modelled as `List Char`; the ECMAScript
regex alternation used by the tokenizer is embedded as an explicit scanner.
-/

/-- Token kinds, from `token.h` / `draft.cpp`. -/
inductive TokenType where
  | KEYWORD | IDENTIFIER | NUMBER | STRING | OPERATOR | WHITESPACE | UNKNOWN
deriving DecidableEq, Repr

/-- A lexical token: kind plus the exact matched text (`struct Token`). -/
structure Token where
  type : TokenType
  value : List Char
deriving DecidableEq, Repr

/-- ECMAScript `\w`: ASCII letters, digits and underscore. -/
def isWordChar (c : Char) : Bool :=
  c.isAlphanum || c == '_'

/-- ECMAScript `\s` in the default locale: space, tab, LF, VT, FF, CR. -/
def isSpaceChar (c : Char) : Bool :=
  c == ' ' || c == '\t' || c == '\n' || c == '\x0b' || c == '\x0c' || c == '\r'

/-- ECMAScript line terminators, which `.` does not match. -/
def isLineTerm (c : Char) : Bool :=
  c == '\n' || c == '\r' || c == '\u2028' || c == '\u2029'

/-- Character class of the fallback alternative `[^\w\s]+`. -/
def isOpChar (c : Char) : Bool :=
  !(isWordChar c) && !(isSpaceChar c)

/-- The reserved word `def`. -/
def defKw : List Char := ['d', 'e', 'f']

/-- The reserved word `print`. -/
def printKw : List Char := ['p', 'r', 'i', 'n', 't']

/-- Word boundary `\b` before the current position: holds at the start of the
input or when the preceding character is not a word character (the scanner is
about to read a word character, so the boundary is exactly this condition). -/
def boundary : Option Char → Bool
  | none => true
  | some c => !(isWordChar c)

/-- Word boundary `\b` after a reserved word: end of input or a non-word
character next. -/
def endBoundary : List Char → Bool
  | [] => true
  | c :: _ => !(isWordChar c)

/-- Whole-word occurrence of the reserved word `kw` at the head of `l`
(the before-boundary is checked by the caller). -/
def kwMatch (kw : List Char) (l : List Char) : Bool :=
  decide (l.take kw.length = kw) && endBoundary (l.drop kw.length)

/-- Non-greedy body scan of `".*?"` after the opening quote: returns the body
(up to the first closing quote, no line terminator allowed) and the rest of
the input after the closing quote, or `none` when the alternative fails. -/
def strScan : List Char → Option (List Char × List Char)
  | [] => none
  | c :: cs =>
    if c == '"' then some ([], cs)
    else if isLineTerm c then none
    else
      match strScan cs with
      | some (body, rest) => some (c :: body, rest)
      | none => none

/-- One step of the ordered alternation
`(\bdef\b|\bprint\b|\w+|[0-9]+|".*?"|\s+|[^\w\s]+)` at a non-empty position:
returns the matched text and the remaining input. -/
def tokStep (prev : Option Char) (c : Char) (cs : List Char) : List Char × List Char :=
  if boundary prev && kwMatch defKw (c :: cs) then
    (defKw, (c :: cs).drop 3)
  else if boundary prev && kwMatch printKw (c :: cs) then
    (printKw, (c :: cs).drop 5)
  else if isWordChar c then
    (c :: cs.takeWhile isWordChar, cs.dropWhile isWordChar)
  else if c.isDigit then
    (c :: cs.takeWhile Char.isDigit, cs.dropWhile Char.isDigit)
  else if c == '"' then
    match strScan cs with
    | some (body, rest) => ('"' :: (body ++ ['"']), rest)
    | none => (c :: cs.takeWhile isOpChar, cs.dropWhile isOpChar)
  else if isSpaceChar c then
    (c :: cs.takeWhile isSpaceChar, cs.dropWhile isSpaceChar)
  else
    (c :: cs.takeWhile isOpChar, cs.dropWhile isOpChar)

/-- The character preceding the next scan position: the last character of the
token just matched (tokens are never empty, so the fallback is unreachable). -/
def prevOf (tok : List Char) (prev : Option Char) : Option Char :=
  match tok.getLast? with
  | some c => some c
  | none => prev

/-- The successive-match loop of `std::sregex_iterator`; `fuel` bounds the
number of tokens, and `fuel = length of the input` always suffices because
every match consumes at least one character. -/
def tokLoop : Nat → Option Char → List Char → List (List Char)
  | 0, _, _ => []
  | _ + 1, _, [] => []
  | fuel + 1, prev, c :: cs =>
    let m := tokStep prev c cs
    m.1 :: tokLoop fuel (prevOf m.1 prev) m.2

/-- Full-string match of `".*?"` after the opening quote: the remaining text
must consist of `.`-matchable characters and end at a closing quote. -/
def strLitTail : List Char → Bool
  | [] => false
  | ['"'] => true
  | c :: cs => !(isLineTerm c) && strLitTail cs

/-- Post-hoc classification of a matched text, re-testing it against the five
sub-patterns in the source's fixed priority order. -/
def classify (s : List Char) : TokenType :=
  if s = defKw ∨ s = printKw then TokenType.KEYWORD
  else if s ≠ [] ∧ s.all isWordChar then TokenType.IDENTIFIER
  else if s ≠ [] ∧ s.all Char.isDigit then TokenType.NUMBER
  else if (match s with | '"' :: rest => strLitTail rest | _ => false) then TokenType.STRING
  else if s ≠ [] ∧ s.all isSpaceChar then TokenType.WHITESPACE
  else TokenType.OPERATOR

/-- `tokenize` from `draft.cpp`: scan the whole input and classify each match. -/
def tokenize (cs : List Char) : List Token :=
  (tokLoop cs.length none cs).map (fun s => ⟨classify s, s⟩)

/-- Syntax-tree node (`struct Node`): a label and an ordered child list. -/
inductive Node where
  | mk (value : List Char) (children : List Node)

/-- The label of a node. -/
def Node.value : Node → List Char
  | .mk v _ => v

/-- The children of a node. -/
def Node.children : Node → List Node
  | .mk _ ch => ch

/-- A leaf node for a non-keyword token. -/
def leafOf (t : Token) : Node := Node.mk t.value []

/-- The token loop of `parse`: state is the mutable `current` node and the
accumulated `root.children`; returns the final child list of the root
(including the trailing push of a labelled `current`). -/
def parseFold : List Token → Node → List Node → List Node
  | [], current, acc =>
    if current.value = [] then acc else acc ++ [current]
  | t :: ts, current, acc =>
    if t.type = TokenType.KEYWORD then
      if current.value = [] then
        parseFold ts (Node.mk t.value current.children) acc
      else
        parseFold ts (Node.mk t.value []) (acc ++ [current])
    else
      parseFold ts (Node.mk current.value (current.children ++ [leafOf t])) acc

/-- `parse` from `draft.cpp`: the root keeps its default-constructed empty
label; its children are produced by the token loop. -/
def parse (tokens : List Token) : Node :=
  Node.mk [] (parseFold tokens (Node.mk [] []) [])

/-- `std::string::operator[]` at index 0: the first character, or the null
character for the empty string (defined behaviour in C++11). -/
def strIndex0 : List Char → Char
  | [] => '\x00'
  | c :: _ => c

/-- The child loop of `checkSemantics`, with its early `return false`. -/
def checkChildren : List Node → Bool
  | [] => true
  | child :: rest =>
    if child.value = printKw then
      match child.children with
      | [] => false
      | c0 :: _ => if strIndex0 c0.value ≠ '"' then false else checkChildren rest
    else checkChildren rest

/-- `checkSemantics` from `draft.cpp`. -/
def checkSemantics (node : Node) : Bool :=
  checkChildren node.children

/-- The per-child emission of `generateCode` (the expanded version of
`draft.cpp`, lines 365-384).  The `def` branch reads `children[0]`, which is
out of bounds when the child list is empty; that access is modelled by
`List.head?`, so the result is `none` exactly when the source indexes out of
bounds. -/
def emitChild (child : Node) : Option (List Char) :=
  if child.value = defKw then
    match child.children.head? with
    | none => none
    | some c0 => some ("void ".data ++ c0.value ++ "() \x7b\n".data)
  else if child.value = printKw then
    some ("std::cout << ".data ++ (child.children.map Node.value).flatten
      ++ " << std::endl;\n".data)
  else if child.value = [':'] then
    some " \x7b\n".data
  else
    some child.value

/-- The child loop of `generateCode`, concatenating per-child emissions. -/
def genChildren : List Node → Option (List Char)
  | [] => some []
  | c :: rest =>
    match emitChild c with
    | none => none
    | some s =>
      match genChildren rest with
      | none => none
      | some r => some (s ++ r)

/-- `generateCode` from `draft.cpp`: the child loop followed by the single
trailing `"}\n"`. -/
def generateCode (node : Node) : Option (List Char) :=
  (genChildren node.children).map (fun body => body ++ ['\x7d', '\n'])

/-- The child loop of `checkSemantics` with every `std::vector` element access
made explicit: `children[0]` is read through `List.head?`, and — mirroring the
short-circuit `size() == 0 || children[0]...` — only after the size guard. -/
def checkChildrenAcc : List Node → Option Bool
  | [] => some true
  | child :: rest =>
    if child.value = printKw then
      if child.children.length = 0 then some false
      else
        match child.children.head? with
        | none => none
        | some c0 =>
          if strIndex0 c0.value ≠ '"' then some false else checkChildrenAcc rest
    else checkChildrenAcc rest

/-- `checkSemantics` with explicit element accesses. -/
def checkSemanticsAcc (node : Node) : Option Bool :=
  checkChildrenAcc node.children

/-- Does a string begin with a double-quote character?  (Property-side
formulation used by the validator claims.) -/
def firstCharIsQuote : List Char → Bool
  | [] => false
  | c :: _ => c == '"'

theorem strScan_append : ∀ (cs body rest : List Char),
    strScan cs = some (body, rest) → body ++ '"' :: rest = cs := by
  intro cs
  induction cs with
  | nil => intro body rest h; simp [strScan] at h
  | cons c cs ih =>
    intro body rest h
    simp only [strScan] at h
    split at h
    · next hc =>
      simp only [Option.some.injEq, Prod.mk.injEq] at h
      obtain ⟨hb, hr⟩ := h
      subst hb; subst hr
      simp only [List.nil_append, List.cons.injEq]
      exact ⟨((beq_iff_eq).mp hc).symm, trivial⟩
    · split at h
      · exact absurd h (by simp)
      · split at h
        · next body' rest' hscan =>
          simp only [Option.some.injEq, Prod.mk.injEq] at h
          obtain ⟨hb, hr⟩ := h
          subst hb; subst hr
          simpa using ih body' rest' hscan
        · exact absurd h (by simp)

theorem tokStep_ne_nil_append (prev : Option Char) (c : Char) (cs : List Char) :
    (tokStep prev c cs).1 ≠ [] ∧ (tokStep prev c cs).1 ++ (tokStep prev c cs).2 = c :: cs := by
  unfold tokStep
  split
  · next h =>
    have hk : (c :: cs).take 3 = defKw := by
      have h2 := ((Bool.and_eq_true ..).mp h).2
      simp only [kwMatch, Bool.and_eq_true, decide_eq_true_eq] at h2
      simpa [defKw] using h2.1
    refine ⟨by simp [defKw], ?_⟩
    rw [← hk]
    exact List.take_append_drop 3 (c :: cs)
  split
  · next h =>
    have hk : (c :: cs).take 5 = printKw := by
      have h2 := ((Bool.and_eq_true ..).mp h).2
      simp only [kwMatch, Bool.and_eq_true, decide_eq_true_eq] at h2
      simpa [printKw] using h2.1
    refine ⟨by simp [printKw], ?_⟩
    rw [← hk]
    exact List.take_append_drop 5 (c :: cs)
  split
  · exact ⟨by simp, by simp [List.takeWhile_append_dropWhile]⟩
  split
  · exact ⟨by simp, by simp [List.takeWhile_append_dropWhile]⟩
  split
  · rename_i hq
    split
    · next body rest hscan =>
      refine ⟨by simp, ?_⟩
      have hb := strScan_append cs body rest hscan
      have hc : c = '"' := (beq_iff_eq).mp hq
      subst hc
      simp only [List.cons_append, List.cons.injEq, true_and]
      rw [List.append_assoc, List.singleton_append]
      exact hb
    · exact ⟨by simp, by simp [List.takeWhile_append_dropWhile]⟩
  split
  · exact ⟨by simp, by simp [List.takeWhile_append_dropWhile]⟩
  · exact ⟨by simp, by simp [List.takeWhile_append_dropWhile]⟩

theorem tokLoop_flatten : ∀ (fuel : Nat) (prev : Option Char) (cs : List Char),
    cs.length ≤ fuel → (tokLoop fuel prev cs).flatten = cs := by
  intro fuel
  induction fuel with
  | zero =>
    intro prev cs h
    have : cs = [] := List.eq_nil_of_length_eq_zero (Nat.le_zero.mp h)
    subst this; rfl
  | succ fuel ih =>
    intro prev cs h
    match cs with
    | [] => rfl
    | c :: cs =>
      have hspec := tokStep_ne_nil_append prev c cs
      have hlen := congrArg List.length hspec.2
      simp only [List.length_append, List.length_cons] at hlen
      have h1 : 0 < (tokStep prev c cs).1.length := List.length_pos.mpr hspec.1
      simp only [List.length_cons] at h
      simp only [tokLoop, List.flatten_cons]
      rw [ih _ _ (by omega)]
      exact hspec.2

/-- C1: for every input text, the texts of the tokens returned by `tokenize`
concatenate back to exactly the input, and the empty input yields the empty
token sequence. -/
theorem tokenize_concat_eq_input (cs : List Char) :
    ((tokenize cs).map Token.value).flatten = cs ∧ tokenize ([] : List Char) = [] := by
  refine ⟨?_, rfl⟩
  simp only [tokenize, List.map_map]
  have hcomp : (Token.value ∘ fun s => (⟨classify s, s⟩ : Token)) = id := rfl
  rw [hcomp, List.map_id]
  exact tokLoop_flatten _ none cs (Nat.le_refl _)

/-- C2 (counterexample): on the input `def main ( ) : print ( "Hello" )` the
claim "build yields a root with two children labeled def and print, and
validate returns pass" is false: validate returns fail, because the print
construct's first grandchild is the whitespace leaf, not the string literal. -/
theorem hello_scenario_claim_false :
    ¬ (((parse (tokenize "def main ( ) : print ( \"Hello\" )".data)).children.map Node.value
        = [defKw, printKw]) ∧
      checkSemantics (parse (tokenize "def main ( ) : print ( \"Hello\" )".data)) = true) := by
  decide

/-- C2 (amended): on the input `def main ( ) : print ( "Hello" )`, tokenize
followed by build yields a root with exactly two direct children, labeled
`def` and `print`, and validate on that tree returns fail (the print
construct's first grandchild is a whitespace leaf, whose label does not begin
with a double quote). -/
theorem hello_scenario_two_children_validate_fails :
    ((parse (tokenize "def main ( ) : print ( \"Hello\" )".data)).children.map Node.value
      = [defKw, printKw]) ∧
    checkSemantics (parse (tokenize "def main ( ) : print ( \"Hello\" )".data)) = false := by
  constructor
  · decide
  · decide

/-- C9: the root node returned by `parse` always carries the empty label;
`parse` assigns labels only to children, never to the root. -/
theorem parse_root_value_empty (tokens : List Token) : (parse tokens).value = [] := rfl

theorem parseFold_no_kw : ∀ (ts : List Token) (v : List Char) (ch acc : List Node),
    (∀ t ∈ ts, t.type ≠ TokenType.KEYWORD) →
    parseFold ts (Node.mk v ch) acc =
      if v = [] then acc else acc ++ [Node.mk v (ch ++ ts.map leafOf)] := by
  intro ts
  induction ts with
  | nil => intro v ch acc _; simp [parseFold, Node.value]
  | cons t ts ih =>
    intro v ch acc hnk
    have ht : t.type ≠ TokenType.KEYWORD := hnk t (by simp)
    simp only [parseFold, Node.value, Node.children, if_neg ht]
    rw [ih v (ch ++ [leafOf t]) acc (fun u hu => hnk u (by simp [hu]))]
    simp

/-- C5: a token sequence containing no KEYWORD token (including the empty
sequence) builds a root with zero children: the accumulated `current` never
acquires a label and is dropped. -/
theorem parse_no_keyword_children_nil (ts : List Token)
    (h : ∀ t ∈ ts, t.type ≠ TokenType.KEYWORD) : (parse ts).children = [] := by
  simp only [parse, Node.children]
  rw [parseFold_no_kw ts [] [] [] h]
  simp

/-- Witness for C5 at a concrete keyword-free token sequence. -/
theorem parse_no_keyword_children_nil_witness :
    (∀ t ∈ [Token.mk TokenType.OPERATOR ['('], Token.mk TokenType.IDENTIFIER ['x']],
      t.type ≠ TokenType.KEYWORD) ∧
    (parse [Token.mk TokenType.OPERATOR ['('], Token.mk TokenType.IDENTIFIER ['x']]).children
      = [] :=
  ⟨by decide, parse_no_keyword_children_nil _ (by decide)⟩

/-- C4: a token sequence of exactly one KEYWORD token (with its non-empty
matched text) followed by non-keyword tokens builds a root with exactly one
child, labelled by the keyword's text, whose children are leaves for the
remaining tokens in order. -/
theorem parse_single_keyword (kw : Token) (rest : List Token)
    (hk : kw.type = TokenType.KEYWORD) (hv : kw.value ≠ [])
    (hr : ∀ t ∈ rest, t.type ≠ TokenType.KEYWORD) :
    (parse (kw :: rest)).children = [Node.mk kw.value (rest.map leafOf)] := by
  simp only [parse, Node.children, parseFold, Node.value, if_pos hk, if_pos rfl]
  rw [parseFold_no_kw rest kw.value [] [] hr]
  simp [hv]

/-- Witness for C4 at `KEYWORD "def"` followed by two non-keyword tokens. -/
theorem parse_single_keyword_witness :
    (Token.mk TokenType.KEYWORD defKw).type = TokenType.KEYWORD ∧
    (Token.mk TokenType.KEYWORD defKw).value ≠ [] ∧
    (∀ t ∈ [Token.mk TokenType.IDENTIFIER ['m'], Token.mk TokenType.OPERATOR ['(']],
      t.type ≠ TokenType.KEYWORD) ∧
    (parse (Token.mk TokenType.KEYWORD defKw ::
        [Token.mk TokenType.IDENTIFIER ['m'], Token.mk TokenType.OPERATOR ['(']])).children
      = [Node.mk defKw
          ([Token.mk TokenType.IDENTIFIER ['m'], Token.mk TokenType.OPERATOR ['(']].map leafOf)] :=
  ⟨rfl, by decide, by decide, parse_single_keyword _ _ rfl (by decide) (by decide)⟩

theorem parseFold_acc : ∀ (ts : List Token) (cur : Node) (acc : List Node),
    parseFold ts cur acc = acc ++ parseFold ts cur [] := by
  intro ts
  induction ts with
  | nil =>
    intro cur acc
    simp only [parseFold]
    split <;> simp
  | cons t ts ih =>
    intro cur acc
    simp only [parseFold]
    split
    · split
      · exact ih _ acc
      · rw [ih _ (acc ++ [cur]), ih _ ([] ++ [cur])]
        simp
    · exact ih _ acc

theorem parseFold_shape : ∀ (ts : List Token) (v : List Char), v ≠ [] →
    ∃ tail others, ∀ (ch acc : List Node),
      parseFold ts (Node.mk v ch) acc = acc ++ (Node.mk v (ch ++ tail) :: others) := by
  intro ts
  induction ts with
  | nil =>
    intro v hv
    exact ⟨[], [], fun ch acc => by simp [parseFold, Node.value, hv]⟩
  | cons t ts ih =>
    intro v hv
    by_cases hk : t.type = TokenType.KEYWORD
    · refine ⟨[], parseFold ts (Node.mk t.value []) [], fun ch acc => ?_⟩
      simp only [parseFold, Node.value, if_pos hk, if_neg hv]
      rw [parseFold_acc ts _ (acc ++ [Node.mk v ch])]
      simp
    · obtain ⟨tail, others, hte⟩ := ih v hv
      refine ⟨leafOf t :: tail, others, fun ch acc => ?_⟩
      simp only [parseFold, Node.value, Node.children, if_neg hk]
      rw [hte (ch ++ [leafOf t]) acc]
      simp

theorem parseFold_pre : ∀ (pre ts : List Token) (ch : List Node) (acc : List Node),
    (∀ t ∈ pre, t.type ≠ TokenType.KEYWORD) →
    parseFold (pre ++ ts) (Node.mk [] ch) acc
      = parseFold ts (Node.mk [] (ch ++ pre.map leafOf)) acc := by
  intro pre
  induction pre with
  | nil => intro ts ch acc _; simp
  | cons p pre ih =>
    intro ts ch acc hnk
    have hp : p.type ≠ TokenType.KEYWORD := hnk p (by simp)
    simp only [List.cons_append, parseFold, Node.value, Node.children, if_neg hp]
    have hih := ih ts (ch ++ [leafOf p]) acc (fun u hu => hnk u (by simp [hu]))
    simpa using hih

/-- C6 (counterexample): a sequence beginning with a non-keyword token before
the first keyword does not build the same tree as the suffix starting at the
keyword: the leading token is not discarded. -/
theorem parse_leading_tokens_cex :
    parse [Token.mk TokenType.OPERATOR ['('], Token.mk TokenType.KEYWORD defKw]
      ≠ parse [Token.mk TokenType.KEYWORD defKw] := by
  intro h
  have h1 := congrArg Node.children h
  have h2 := congrArg (List.map fun m => m.children.length) h1
  exact absurd h2 (by decide)

/-- C6 (amended): leading non-keyword tokens before the first keyword are not
discarded: they are retained as the leading children of the first
keyword-headed construct, and the rest of the tree is unchanged. -/
theorem parse_leading_tokens_retained (pre : List Token) (kw : Token) (rest : List Token)
    (hpre : pre ≠ []) (hnk : ∀ t ∈ pre, t.type ≠ TokenType.KEYWORD)
    (hk : kw.type = TokenType.KEYWORD) (hv : kw.value ≠ []) :
    ∃ first others,
      (parse (kw :: rest)).children = first :: others ∧
      (parse (pre ++ kw :: rest)).children
        = Node.mk first.value (pre.map leafOf ++ first.children) :: others := by
  obtain ⟨tail, others, hsh⟩ := parseFold_shape rest kw.value hv
  refine ⟨Node.mk kw.value tail, others, ?_, ?_⟩
  · simp only [parse, Node.children, parseFold, Node.value, if_pos hk, if_pos rfl]
    rw [hsh [] []]
    simp
  · simp only [parse, Node.children]
    rw [parseFold_pre pre (kw :: rest) [] [] hnk]
    simp only [parseFold, Node.value, Node.children, if_pos hk, if_pos rfl, List.nil_append]
    rw [hsh (pre.map leafOf) []]
    simp [Node.value, Node.children]

/-- Witness for the amended C6 at a concrete leading operator token. -/
theorem parse_leading_tokens_retained_witness :
    ([Token.mk TokenType.OPERATOR ['(']] ≠ ([] : List Token)) ∧
    (∀ t ∈ [Token.mk TokenType.OPERATOR ['(']], t.type ≠ TokenType.KEYWORD) ∧
    (Token.mk TokenType.KEYWORD defKw).type = TokenType.KEYWORD ∧
    (Token.mk TokenType.KEYWORD defKw).value ≠ [] ∧
    (∃ first others,
      (parse (Token.mk TokenType.KEYWORD defKw :: [])).children = first :: others ∧
      (parse ([Token.mk TokenType.OPERATOR ['(']] ++ Token.mk TokenType.KEYWORD defKw :: [])).children
        = Node.mk first.value ([Token.mk TokenType.OPERATOR ['(']].map leafOf ++ first.children)
            :: others) :=
  ⟨by decide, by decide, rfl, by decide,
    parse_leading_tokens_retained _ _ _ (by decide) (by decide) rfl (by decide)⟩

theorem firstCharIsQuote_false_iff (s : List Char) :
    firstCharIsQuote s = false ↔ strIndex0 s ≠ '"' := by
  cases s with
  | nil =>
    simp only [firstCharIsQuote, strIndex0]
    decide
  | cons c cs => simp [firstCharIsQuote, strIndex0]

theorem checkChildren_false_iff : ∀ l : List Node,
    checkChildren l = false ↔
      ∃ c ∈ l, c.value = printKw ∧
        (c.children = [] ∨ ∃ c0 cr, c.children = c0 :: cr ∧ firstCharIsQuote c0.value = false) := by
  intro l
  induction l with
  | nil => simp [checkChildren]
  | cons child rest ih =>
    by_cases hp : child.value = printKw
    · cases hch : child.children with
      | nil =>
        simp only [checkChildren, if_pos hp, hch]
        constructor
        · intro _
          exact ⟨child, by simp, hp, Or.inl hch⟩
        · intro _; trivial
      | cons c0 cr =>
        by_cases hq : strIndex0 c0.value = '"'
        · simp only [checkChildren, if_pos hp, hch, if_neg (not_not_intro hq)]
          rw [ih]
          constructor
          · rintro ⟨c, hc, hcp, hbad⟩
            exact ⟨c, by simp [hc], hcp, hbad⟩
          · rintro ⟨c, hc, hcp, hbad⟩
            rcases List.mem_cons.mp hc with hceq | hcr
            · subst hceq
              rcases hbad with hnil | ⟨c0', cr', heq, hfq⟩
              · rw [hch] at hnil; exact absurd hnil (by simp)
              · rw [hch] at heq
                obtain ⟨h0, _⟩ := List.cons.inj heq
                subst h0
                exact absurd hq ((firstCharIsQuote_false_iff _).mp hfq)
            · exact ⟨c, hcr, hcp, hbad⟩
        · simp only [checkChildren, if_pos hp, hch, if_pos hq]
          constructor
          · intro _
            exact ⟨child, by simp, hp,
              Or.inr ⟨c0, cr, hch, (firstCharIsQuote_false_iff _).mpr hq⟩⟩
          · intro _; trivial
    · simp only [checkChildren, if_neg hp]
      rw [ih]
      constructor
      · rintro ⟨c, hc, hcp, hbad⟩
        exact ⟨c, by simp [hc], hcp, hbad⟩
      · rintro ⟨c, hc, hcp, hbad⟩
        rcases List.mem_cons.mp hc with hceq | hcr
        · subst hceq; exact absurd hcp hp
        · exact ⟨c, hcr, hcp, hbad⟩

/-- C3: `checkSemantics` returns fail exactly when some direct child of the
root labelled `print` has no children at all or has a first child whose label
does not begin with a double quote; every other tree passes, and children with
any other label are unconditionally accepted. -/
theorem checkSemantics_false_iff (t : Node) :
    checkSemantics t = false ↔
      ∃ c ∈ t.children, c.value = printKw ∧
        (c.children = [] ∨ ∃ c0 cr, c.children = c0 :: cr ∧ firstCharIsQuote c0.value = false) :=
  checkChildren_false_iff t.children

theorem tokLoop_nil : ∀ (fuel : Nat) (prev : Option Char), tokLoop fuel prev [] = [] := by
  intro fuel prev
  cases fuel <;> rfl

/-- C7 (counterexample): on the all-digit input `123`, `tokenize` does not
return a single NUMBER token: the whole-string re-test against `\w+` fires
before `[0-9]+`, so the token kind is IDENTIFIER. -/
theorem tokenize_digits_not_number :
    ¬ ((tokenize ['1', '2', '3']).map Token.type = [TokenType.NUMBER]) := by
  decide

/-- C7 (amended): every non-empty input consisting solely of digit characters
tokenizes to a single token covering the whole input, classified IDENTIFIER
(digits are word characters, and the IDENTIFIER re-test precedes NUMBER). -/
theorem tokenize_digits_identifier (cs : List Char) (hne : cs ≠ [])
    (hd : ∀ c ∈ cs, c.isDigit = true) :
    tokenize cs = [Token.mk TokenType.IDENTIFIER cs] := by
  have hwc : ∀ x : Char, x.isDigit = true → isWordChar x = true := fun x hx => by
    simp [isWordChar, Char.isAlphanum, hx]
  rcases cs with _ | ⟨c, cs⟩
  · exact absurd rfl hne
  have hc : c.isDigit = true := hd c (by simp)
  have hcd : c ≠ 'd' := by intro h; rw [h] at hc; exact absurd hc (by decide)
  have hcp : c ≠ 'p' := by intro h; rw [h] at hc; exact absurd hc (by decide)
  have hkd : kwMatch defKw (c :: cs) = false := by
    rw [Bool.eq_false_iff]
    intro hm
    simp only [kwMatch, Bool.and_eq_true, decide_eq_true_eq] at hm
    have ht : (c :: cs).take defKw.length = c :: cs.take 2 := rfl
    rw [ht] at hm
    have h1 := hm.1
    rw [show defKw = 'd' :: ['e', 'f'] from rfl] at h1
    exact hcd (List.cons.inj h1).1
  have hkp : kwMatch printKw (c :: cs) = false := by
    rw [Bool.eq_false_iff]
    intro hm
    simp only [kwMatch, Bool.and_eq_true, decide_eq_true_eq] at hm
    have ht : (c :: cs).take printKw.length = c :: cs.take 4 := rfl
    rw [ht] at hm
    have h1 := hm.1
    rw [show printKw = 'p' :: ['r', 'i', 'n', 't'] from rfl] at h1
    exact hcp (List.cons.inj h1).1
  have hwcs : cs.takeWhile isWordChar = cs :=
    List.takeWhile_eq_self_iff.mpr (fun x hx => hwc x (hd x (by simp [hx])))
  have hdcs : cs.dropWhile isWordChar = [] :=
    List.dropWhile_eq_nil_iff.mpr (fun x hx => hwc x (hd x (by simp [hx])))
  have hstep : tokStep none c cs = (c :: cs, []) := by
    simp [tokStep, boundary, hkd, hkp, hwc c hc, hwcs, hdcs]
  have hnd : (c :: cs) ≠ defKw := by
    intro h
    rw [show defKw = 'd' :: ['e', 'f'] from rfl] at h
    exact hcd (List.cons.inj h).1
  have hnp : (c :: cs) ≠ printKw := by
    intro h
    rw [show printKw = 'p' :: ['r', 'i', 'n', 't'] from rfl] at h
    exact hcp (List.cons.inj h).1
  have hall : (c :: cs).all isWordChar = true :=
    List.all_eq_true.mpr (fun x hx => hwc x (hd x hx))
  have hcl : classify (c :: cs) = TokenType.IDENTIFIER := by
    simp [classify, hnd, hnp, hall]
  have hlen : (c :: cs).length = cs.length + 1 := rfl
  simp only [tokenize, hlen, tokLoop, hstep, tokLoop_nil, List.map_cons, List.map_nil, hcl]

/-- Witness for the amended C7 at the concrete input `123`. -/
theorem tokenize_digits_identifier_witness :
    (['1', '2', '3'] ≠ ([] : List Char)) ∧ (∀ c ∈ ['1', '2', '3'], c.isDigit = true) ∧
    tokenize ['1', '2', '3'] = [Token.mk TokenType.IDENTIFIER ['1', '2', '3']] :=
  ⟨by decide, by decide, tokenize_digits_identifier _ (by decide) (by decide)⟩

theorem checkChildrenAcc_eq : ∀ l : List Node, checkChildrenAcc l = some (checkChildren l) := by
  intro l
  induction l with
  | nil => rfl
  | cons child rest ih =>
    by_cases hp : child.value = printKw
    · cases hch : child.children with
      | nil => simp [checkChildrenAcc, checkChildren, hp, hch]
      | cons c0 cr =>
        by_cases hq : strIndex0 c0.value = '"'
        · simp [checkChildrenAcc, checkChildren, hp, hch, hq, ih]
        · simp [checkChildrenAcc, checkChildren, hp, hch, hq]
    · simp [checkChildrenAcc, checkChildren, hp, ih]

theorem emitChild_isSome_iff (c : Node) :
    (emitChild c).isSome = true ↔ (c.value = defKw → c.children ≠ []) := by
  by_cases hd : c.value = defKw
  · cases hch : c.children with
    | nil => simp [emitChild, hd, hch]
    | cons c0 cr => simp [emitChild, hd, hch]
  · simp only [emitChild, if_neg hd]
    split
    · simp [hd]
    · split <;> simp [hd]

theorem genChildren_cons_isSome (c : Node) (rest : List Node) :
    (genChildren (c :: rest)).isSome = ((emitChild c).isSome && (genChildren rest).isSome) := by
  cases hec : emitChild c <;> cases hgr : genChildren rest <;> simp [genChildren, hec, hgr]

theorem genChildren_isSome_iff : ∀ l : List Node,
    (genChildren l).isSome = true ↔ ∀ c ∈ l, c.value = defKw → c.children ≠ [] := by
  intro l
  induction l with
  | nil => simp [genChildren]
  | cons c rest ih =>
    rw [genChildren_cons_isSome, Bool.and_eq_true, emitChild_isSome_iff, ih]
    simp

/-- C10: `generateCode` performs only in-bounds child accesses exactly when
every `def`-labelled direct child has at least one child (the `def` branch
reads `children[0]`), so the precondition is necessary and sufficient; and
`checkSemantics`, whose first-grandchild access sits behind a size check, is
in-bounds on every tree (the access-checked model never fails and agrees with
the direct model). -/
theorem emit_inbounds_iff_validate_inbounds (t : Node) :
    ((generateCode t).isSome = true ↔ ∀ c ∈ t.children, c.value = defKw → c.children ≠ []) ∧
    checkSemanticsAcc t = some (checkSemantics t) := by
  constructor
  · have hiso : (generateCode t).isSome = (genChildren t.children).isSome := by
      cases hgc : genChildren t.children <;> simp [generateCode, hgc]
    rw [hiso]
    exact genChildren_isSome_iff t.children
  · exact checkChildrenAcc_eq t.children

theorem emitChild_some_shape (c : Node) (h : c.value = defKw → c.children ≠ []) :
    ∃ s, emitChild c = some s ∧
      (('\x7d' ∉ c.value ∧ ∀ g ∈ c.children, '\x7d' ∉ g.value) → s.count '\x7d' = 0) := by
  by_cases hd : c.value = defKw
  · cases hch : c.children with
    | nil => exact absurd hch (h hd)
    | cons c0 cr =>
      refine ⟨"void ".data ++ c0.value ++ "() \x7b\n".data,
        by simp [emitChild, hd, hch], fun hnb => ?_⟩
      have h0 : ('\x7d' : Char) ∉ c0.value := hnb.2 c0 (by simp)
      rw [List.count_append, List.count_append, List.count_eq_zero.mpr h0]
      decide
  · by_cases hp : c.value = printKw
    · refine ⟨"std::cout << ".data ++ (c.children.map Node.value).flatten
          ++ " << std::endl;\n".data, by simp only [emitChild, if_neg hd, if_pos hp], fun hnb => ?_⟩
      have hfl : ('\x7d' : Char) ∉ (c.children.map Node.value).flatten := by
        intro hmem
        obtain ⟨l, hl, hcl⟩ := List.mem_flatten.mp hmem
        obtain ⟨g, hg, hgv⟩ := List.mem_map.mp hl
        exact hnb.2 g hg (hgv ▸ hcl)
      rw [List.count_append, List.count_append, List.count_eq_zero.mpr hfl]
      decide
    · by_cases hcol : c.value = [':']
      · exact ⟨" \x7b\n".data, by simp only [emitChild, if_neg hd, if_neg hp, if_pos hcol],
          fun _ => by decide⟩
      · exact ⟨c.value, by simp only [emitChild, if_neg hd, if_neg hp, if_neg hcol],
          fun hnb => List.count_eq_zero.mpr hnb.1⟩

theorem genChildren_some_shape : ∀ l : List Node,
    (∀ c ∈ l, c.value = defKw → c.children ≠ []) →
    ∃ body, genChildren l = some body ∧
      ((∀ c ∈ l, '\x7d' ∉ c.value ∧ ∀ g ∈ c.children, '\x7d' ∉ g.value) →
        body.count '\x7d' = 0) := by
  intro l
  induction l with
  | nil => exact fun _ => ⟨[], rfl, fun _ => rfl⟩
  | cons c rest ih =>
    intro hdef
    obtain ⟨s, hs, hsc⟩ := emitChild_some_shape c (hdef c (by simp))
    obtain ⟨body, hb, hbc⟩ := ih (fun u hu => hdef u (by simp [hu]))
    refine ⟨s ++ body, by simp [genChildren, hs, hb], fun hnb => ?_⟩
    rw [List.count_append, hsc ⟨(hnb c (by simp)).1, (hnb c (by simp)).2⟩,
      hbc (fun u hu => hnb u (by simp [hu]))]

/-- C8: whenever `generateCode` completes (every `def` child has a first
child), its output is the per-child emission followed by exactly one closing
brace and a line break; and when the tree's labels contain no closing brace of
their own, the whole output contains exactly one closing brace, independent of
how many `def` constructs the tree contains. -/
theorem generateCode_single_trailing_brace (t : Node)
    (hdef : ∀ c ∈ t.children, c.value = defKw → c.children ≠ []) :
    ∃ body, generateCode t = some (body ++ ['\x7d', '\n']) ∧
      ((∀ c ∈ t.children, '\x7d' ∉ c.value ∧ ∀ g ∈ c.children, '\x7d' ∉ g.value) →
        (body ++ ['\x7d', '\n']).count '\x7d' = 1) := by
  obtain ⟨body, hb, hcount⟩ := genChildren_some_shape t.children hdef
  refine ⟨body, by simp [generateCode, hb], fun hnb => ?_⟩
  rw [List.count_append, hcount hnb]
  decide

/-- Witness for C8 at a tree with two `def` constructs: still exactly one
closing brace. -/
theorem generateCode_single_trailing_brace_witness :
    (∀ c ∈ (Node.mk [] [Node.mk defKw [Node.mk ['a'] []],
        Node.mk defKw [Node.mk ['b'] []]]).children, c.value = defKw → c.children ≠ []) ∧
    (∃ body, generateCode (Node.mk [] [Node.mk defKw [Node.mk ['a'] []],
        Node.mk defKw [Node.mk ['b'] []]]) = some (body ++ ['\x7d', '\n']) ∧
      ((∀ c ∈ (Node.mk [] [Node.mk defKw [Node.mk ['a'] []],
          Node.mk defKw [Node.mk ['b'] []]]).children,
          '\x7d' ∉ c.value ∧ ∀ g ∈ c.children, '\x7d' ∉ g.value) →
        (body ++ ['\x7d', '\n']).count '\x7d' = 1)) :=
  ⟨by simp [Node.value, Node.children], generateCode_single_trailing_brace _
    (by simp [Node.value, Node.children])⟩
